import Mathlib

/-!
Verification development for the `hpp-model` joint/kinematic-tree library
(`include/hpp/model/joint.hh`).

The header declares the class `Joint` (tree links, configuration/velocity
ranks, bounds, cached current transform, Jacobian block, mass aggregates)
and its four kinds (`JointAnchor`, `JointSO3`, `JointRotation`,
`JointTranslation`).  Inline member bodies (name accessors, `numberDof`,
`configSize`, ranks, `numberChildJoints`, `childJoint`, `jacobian`) are
embedded directly from the source; the out-of-line bodies (position /
Jacobian / mass propagation, `addChildJoint`, bound accessors, the
per-kind `computeMotion` and `writeSubJacobian`) are not part of the
sources and are modelled from the specification, as marked on each
definition.  Real scalars stand for the C++ `double` values.
-/

namespace HppModel

/-- A 3-vector of real scalars (embeds `fcl::Vec3f`). -/
@[ext] structure Vec3 where
  x : ℝ
  y : ℝ
  z : ℝ

namespace Vec3

def add (a b : Vec3) : Vec3 := ⟨a.x + b.x, a.y + b.y, a.z + b.z⟩

def sub (a b : Vec3) : Vec3 := ⟨a.x - b.x, a.y - b.y, a.z - b.z⟩

def smul (c : ℝ) (a : Vec3) : Vec3 := ⟨c * a.x, c * a.y, c * a.z⟩

/-- Cross product of two 3-vectors. -/
def cross (a b : Vec3) : Vec3 :=
  ⟨a.y * b.z - a.z * b.y, a.z * b.x - a.x * b.z, a.x * b.y - a.y * b.x⟩

/-- Dot product of two 3-vectors. -/
def dot (a b : Vec3) : ℝ := a.x * b.x + a.y * b.y + a.z * b.z

instance : Add Vec3 := ⟨Vec3.add⟩

instance : Sub Vec3 := ⟨Vec3.sub⟩

instance : SMul ℝ Vec3 := ⟨Vec3.smul⟩

instance : Zero Vec3 := ⟨⟨0, 0, 0⟩⟩

@[simp] theorem add_def (a b : Vec3) :
    a + b = ⟨a.x + b.x, a.y + b.y, a.z + b.z⟩ := rfl

@[simp] theorem sub_def (a b : Vec3) :
    a - b = ⟨a.x - b.x, a.y - b.y, a.z - b.z⟩ := rfl

@[simp] theorem smul_def (c : ℝ) (a : Vec3) :
    c • a = ⟨c * a.x, c * a.y, c * a.z⟩ := rfl

@[simp] theorem zero_x : (0 : Vec3).x = 0 := rfl

@[simp] theorem zero_y : (0 : Vec3).y = 0 := rfl

@[simp] theorem zero_z : (0 : Vec3).z = 0 := rfl

@[simp] theorem zero_add (v : Vec3) : (0 : Vec3) + v = v := by
  ext <;> simp

@[simp] theorem add_zero (v : Vec3) : v + (0 : Vec3) = v := by
  ext <;> simp

theorem add_assoc (a b c : Vec3) : a + b + c = a + (b + c) := by
  ext <;> simp <;> ring

end Vec3

/-- A 3×3 matrix of real scalars, stored by rows (embeds `fcl::Matrix3f`). -/
@[ext] structure Mat3 where
  r0 : Vec3
  r1 : Vec3
  r2 : Vec3

namespace Mat3

/-- Matrix–vector product. -/
def mulVec (M : Mat3) (v : Vec3) : Vec3 := ⟨M.r0.dot v, M.r1.dot v, M.r2.dot v⟩

def col0 (M : Mat3) : Vec3 := ⟨M.r0.x, M.r1.x, M.r2.x⟩

def col1 (M : Mat3) : Vec3 := ⟨M.r0.y, M.r1.y, M.r2.y⟩

def col2 (M : Mat3) : Vec3 := ⟨M.r0.z, M.r1.z, M.r2.z⟩

/-- Matrix product. -/
def mul (M N : Mat3) : Mat3 :=
  ⟨⟨M.r0.dot N.col0, M.r0.dot N.col1, M.r0.dot N.col2⟩,
   ⟨M.r1.dot N.col0, M.r1.dot N.col1, M.r1.dot N.col2⟩,
   ⟨M.r2.dot N.col0, M.r2.dot N.col1, M.r2.dot N.col2⟩⟩

/-- The identity matrix. -/
def one : Mat3 := ⟨⟨1, 0, 0⟩, ⟨0, 1, 0⟩, ⟨0, 0, 1⟩⟩

def add (M N : Mat3) : Mat3 := ⟨M.r0 + N.r0, M.r1 + N.r1, M.r2 + N.r2⟩

def smul (c : ℝ) (M : Mat3) : Mat3 := ⟨c • M.r0, c • M.r1, c • M.r2⟩

instance : Add Mat3 := ⟨Mat3.add⟩

instance : SMul ℝ Mat3 := ⟨Mat3.smul⟩

@[simp] theorem add_mat_def (M N : Mat3) :
    M + N = ⟨M.r0 + N.r0, M.r1 + N.r1, M.r2 + N.r2⟩ := rfl

@[simp] theorem smul_mat_def (c : ℝ) (M : Mat3) :
    c • M = ⟨c • M.r0, c • M.r1, c • M.r2⟩ := rfl

theorem mul_assoc (A B C : Mat3) : (A.mul B).mul C = A.mul (B.mul C) := by
  simp only [mul, col0, col1, col2, Vec3.dot]
  ext <;> ring

theorem mulVec_mul (A B : Mat3) (v : Vec3) :
    (A.mul B).mulVec v = A.mulVec (B.mulVec v) := by
  simp only [mul, mulVec, col0, col1, col2, Vec3.dot]
  ext <;> ring

@[simp] theorem one_mul (M : Mat3) : Mat3.one.mul M = M := by
  simp only [mul, one, col0, col1, col2, Vec3.dot]
  ext <;> ring

@[simp] theorem mul_one (M : Mat3) : M.mul Mat3.one = M := by
  simp only [mul, one, col0, col1, col2, Vec3.dot]
  ext <;> ring

@[simp] theorem one_mulVec (v : Vec3) : Mat3.one.mulVec v = v := by
  simp only [mulVec, one, Vec3.dot]
  ext <;> ring

end Mat3

/-- A rigid transform: rotation part and translation part
(embeds `fcl::Transform3f`, an element of SE(3)). -/
@[ext] structure Transform where
  rot : Mat3
  trans : Vec3

namespace Transform

/-- Composition of rigid transforms: `(A.comp B) v = A (B v)`. -/
def comp (A B : Transform) : Transform :=
  ⟨A.rot.mul B.rot, A.rot.mulVec B.trans + A.trans⟩

/-- The identity transform. -/
def one : Transform := ⟨Mat3.one, 0⟩

/-- Apply a rigid transform to a point. -/
def apply (A : Transform) (v : Vec3) : Vec3 := A.rot.mulVec v + A.trans

theorem comp_assoc (A B C : Transform) :
    (A.comp B).comp C = A.comp (B.comp C) := by
  simp only [comp, Mat3.mul_assoc, Mat3.mulVec_mul]
  ext <;> simp [Mat3.mulVec, Vec3.dot] <;> ring

@[simp] theorem one_comp (A : Transform) : Transform.one.comp A = A := by
  simp only [comp, one, Mat3.one_mul, Mat3.one_mulVec]
  ext <;> simp

@[simp] theorem comp_one (A : Transform) : A.comp Transform.one = A := by
  simp only [comp, one, Mat3.mul_one]
  ext <;> simp [Mat3.mulVec, Vec3.dot]

end Transform

/-- The closed set of joint kinds of the header: `JointAnchor`, `JointSO3`,
`JointRotation` (fixed axis in parent frame), `JointTranslation` (fixed axis
in parent frame).  The axis of the two axial kinds is the fixed data the
spec's variant table attaches to the kind. -/
inductive JointKind where
  | anchor : JointKind
  | so3 : JointKind
  | rotation (axis : Vec3) : JointKind
  | translation (axis : Vec3) : JointKind

namespace JointKind

/-- Configuration-space size of each kind (spec §4.2 variant table:
Anchor 0, Spherical 4, Axial-Rotation 1, Axial-Translation 1). -/
def configSize : JointKind → ℕ
  | .anchor => 0
  | .so3 => 4
  | .rotation _ => 1
  | .translation _ => 1

/-- Degrees of freedom of each kind (spec §4.2 variant table:
Anchor 0, Spherical 3, Axial-Rotation 1, Axial-Translation 1). -/
def numberDof : JointKind → ℕ
  | .anchor => 0
  | .so3 => 3
  | .rotation _ => 1
  | .translation _ => 1

end JointKind

/-- A quaternion `w + xi + yj + zk`, the 4-scalar configuration slice of a
`JointSO3`. -/
@[ext] structure Quat where
  w : ℝ
  x : ℝ
  y : ℝ
  z : ℝ

namespace Quat

instance : SMul ℝ Quat := ⟨fun c q => ⟨c * q.w, c * q.x, c * q.y, c * q.z⟩⟩

@[simp] theorem smul_quat_def (c : ℝ) (q : Quat) :
    c • q = ⟨c * q.w, c * q.x, c * q.y, c * q.z⟩ := rfl

/-- Squared Euclidean norm of a quaternion. -/
def norm2 (q : Quat) : ℝ := q.w ^ 2 + q.x ^ 2 + q.y ^ 2 + q.z ^ 2

/-- Normalization of a quaternion to unit length. -/
noncomputable def normalize (q : Quat) : Quat :=
  (1 / Real.sqrt q.norm2) • q

theorem norm2_nonneg (q : Quat) : 0 ≤ q.norm2 := by
  simp only [norm2]; positivity

theorem norm2_smul (c : ℝ) (q : Quat) : (c • q).norm2 = c ^ 2 * q.norm2 := by
  simp only [norm2, smul_quat_def]; ring

/-- The normalization of a nonzero quaternion has unit length. -/
theorem norm2_normalize (q : Quat) (h : q.norm2 ≠ 0) :
    q.normalize.norm2 = 1 := by
  have hpos : 0 < q.norm2 := lt_of_le_of_ne q.norm2_nonneg (Ne.symm h)
  have hs : Real.sqrt q.norm2 ≠ 0 := by
    exact ne_of_gt (Real.sqrt_pos.mpr hpos)
  have hsq : Real.sqrt q.norm2 ^ 2 = q.norm2 := Real.sq_sqrt (le_of_lt hpos)
  simp only [normalize, norm2_smul]
  field_simp

end Quat

/-- Rotation matrix of a unit quaternion (the standard SO(3) chart). -/
def rotOfQuat (q : Quat) : Mat3 :=
  ⟨⟨1 - 2 * (q.y ^ 2 + q.z ^ 2), 2 * (q.x * q.y - q.w * q.z),
      2 * (q.x * q.z + q.w * q.y)⟩,
   ⟨2 * (q.x * q.y + q.w * q.z), 1 - 2 * (q.x ^ 2 + q.z ^ 2),
      2 * (q.y * q.z - q.w * q.x)⟩,
   ⟨2 * (q.x * q.z - q.w * q.y), 2 * (q.y * q.z + q.w * q.x),
      1 - 2 * (q.x ^ 2 + q.y ^ 2)⟩⟩

/-- Outcome flag of a `JointSO3` motion computation: either a normal result
or a recoverable anomaly (degenerate normalization input). -/
inductive MotionStatus where
  | ok : MotionStatus
  | recoverableAnomaly : MotionStatus

instance : DecidableEq MotionStatus := fun a b => by
  cases a <;> cases b <;> first
    | exact isTrue rfl
    | exact isFalse (by intro h; cases h)

/-- Modelled from the spec: the body of `JointSO3::computeMotion` is not in
the sources.  Per spec §4.2 and §7(e), the 4-scalar slice is "normalized to
unit length before use" (never assumed unit length), and a degenerate slice
(zero norm; the spec's floating-point "near-zero" threshold is idealized to
exact zero over ℝ) "falls back to the identity rotation, logged as a
recoverable anomaly" instead of failing hard. -/
noncomputable def so3Motion (q : Quat) : Mat3 × MotionStatus :=
  if q.norm2 = 0 then (Mat3.one, .recoverableAnomaly)
  else (rotOfQuat q.normalize, .ok)

/-- The skew-symmetric cross-product matrix of a vector. -/
def crossMat (a : Vec3) : Mat3 :=
  ⟨⟨0, -a.z, a.y⟩, ⟨a.z, 0, -a.x⟩, ⟨-a.y, a.x, 0⟩⟩

/-- Outer product `a bᵀ` of two vectors. -/
def outerMat (a b : Vec3) : Mat3 := ⟨a.x • b, a.y • b, a.z • b⟩

/-- Rodrigues rotation matrix: rotation of angle `θ` about axis `a`. -/
noncomputable def rotationAboutAxis (a : Vec3) (θ : ℝ) : Mat3 :=
  Real.cos θ • Mat3.one + Real.sin θ • crossMat a
    + (1 - Real.cos θ) • outerMat a a

/-- The quaternion read off a Spherical joint's 4-scalar configuration
slice. -/
def quatOfSlice (s : List ℝ) : Quat :=
  ⟨s.getD 0 0, s.getD 1 0, s.getD 2 0, s.getD 3 0⟩

/-- Modelled from the spec: the bodies of the four `computeMotion`
overrides are not in the sources.  Per the spec §4.2 variant table, the
kind maps its configuration slice to a transform relative to the parent:
Anchor → identity ("no motion"); Spherical → pure rotation built from the
normalized 4-scalar slice; Axial-Rotation → rotation of the given angle
about the fixed axis; Axial-Translation → pure translation of the given
length along the fixed axis. -/
noncomputable def kindMotion : JointKind → List ℝ → Transform
  | .anchor, _ => Transform.one
  | .so3, s => ⟨(so3Motion (quatOfSlice s)).1, 0⟩
  | .rotation a, s => ⟨rotationAboutAxis a (s.getD 0 0), 0⟩
  | .translation a, s => ⟨Mat3.one, (s.getD 0 0) • a⟩

/-- A rigid body optionally attached to a joint: a mass and a center of
mass expressed in the joint's local frame. -/
structure Body where
  mass : ℝ
  localCom : Vec3

/-- One column of a 6-row Jacobian block: angular rows then linear rows. -/
@[ext] structure JacCol where
  ang : Vec3
  lin : Vec3

/-- The zero Jacobian column. -/
def JacCol.zero : JacCol := ⟨0, 0⟩

/-- The state of one `Joint` object: static shape (kind, ranks, initial
position), bounds bookkeeping, cached current transform, cached Jacobian
block (a map from column index to a 6-row column), mass aggregates, tree
links by joint id (`parent_`, `children_`), and the optional attached
body. -/
structure Joint where
  name : String
  kind : JointKind
  initialPosition : Transform
  rankInConfiguration : ℕ
  rankInVelocity : ℕ
  currentTransformation : Transform
  jacobian : ℕ → JacCol
  boundFlags : ℕ → Bool
  lowerBounds : ℕ → ℝ
  upperBounds : ℕ → ℝ
  mass : ℝ
  massCom : Vec3
  parent : Option ℕ
  children : List ℕ
  body : Option Body

namespace Joint

/-- `Joint::numberDof` (src line 75): the degree-of-freedom count, fixed by
the kind at construction. -/
def numberDof (j : Joint) : ℕ := j.kind.numberDof

/-- `Joint::configSize` (src line 80): the configuration-space size, fixed
by the kind at construction. -/
def configSize (j : Joint) : ℕ := j.kind.configSize

end Joint

/-- A joint with default-initialized fields, used to build concrete
examples. -/
def defaultJoint : Joint :=
  { name := ""
    kind := .anchor
    initialPosition := Transform.one
    rankInConfiguration := 0
    rankInVelocity := 0
    currentTransformation := Transform.one
    jacobian := fun _ => JacCol.zero
    boundFlags := fun _ => false
    lowerBounds := fun _ => 0
    upperBounds := fun _ => 0
    mass := 0
    massCom := 0
    parent := none
    children := []
    body := none }

/-- The slice of `n` scalars of the configuration vector starting at rank
`r` (spec §4.1: "the configSize-sized slice of configVector starting at
rankInConfiguration"). -/
def slice (cfg : List ℝ) (r n : ℕ) : List ℝ := (cfg.drop r).take n

/-- Modelled from the spec: the body of the dispatch inside
`Joint::computePosition` is not in the sources.  The joint's motion
relative to its parent: the initial position (pose at the zero/identity
input) composed with the kind's motion computed from the joint's
configuration slice. -/
noncomputable def motionOf (cfg : List ℝ) (j : Joint) : Transform :=
  j.initialPosition.comp
    (kindMotion j.kind (slice cfg j.rankInConfiguration j.kind.configSize))

/-- A kinematic tree: a joint together with the ordered subtrees rooted at
its children (spec §2: the relational structure over `Joint` instances that
the propagation algorithms traverse). -/
inductive JTree where
  | node (j : Joint) (cs : List JTree) : JTree

/-- The joint stored at the root of a tree. -/
def JTree.joint : JTree → Joint
  | .node d _ => d

/-- The subtrees rooted at the root's children. -/
def JTree.childTrees : JTree → List JTree
  | .node _ cs => cs

mutual

/-- Modelled from the spec: the body of `Joint::computePosition` is not in
the sources.  Per spec §4.1, given the configuration vector and the
already-computed parent transform (identity for the root), the pass
(1) asks the kind for this joint's motion from its configuration slice,
(2) composes it with the parent transform and caches the result, then
recurses into the children top-down (parent before child). -/
noncomputable def computePositions (cfg : List ℝ) (T : Transform) :
    JTree → JTree
  | .node d cs =>
      .node { d with currentTransformation := T.comp (motionOf cfg d) }
        (computePositionsList cfg (T.comp (motionOf cfg d)) cs)

/-- Position propagation over a list of sibling subtrees. -/
noncomputable def computePositionsList (cfg : List ℝ) (T : Transform) :
    List JTree → List JTree
  | [] => []
  | c :: cs => computePositions cfg T c :: computePositionsList cfg T cs

end

/-- The node of a tree reached by following a path of child indices. -/
def getNode : JTree → List ℕ → Option JTree
  | t, [] => some t
  | .node _ cs, i :: p =>
      match cs.get? i with
      | some c => getNode c p
      | none => none

/-- The joints along a path from the root (inclusive) down to the node
reached by the path (inclusive): the node's ancestors and itself. -/
def pathJoints : JTree → List ℕ → Option (List Joint)
  | .node d _, [] => some [d]
  | .node d cs, i :: p =>
      match cs.get? i with
      | some c => (pathJoints c p).map (fun js => d :: js)
      | none => none

theorem computePositionsList_get (cfg : List ℝ) (T : Transform)
    (ts : List JTree) (i : ℕ) :
    (computePositionsList cfg T ts).get? i =
      (ts.get? i).map (computePositions cfg T) := by
  induction ts generalizing i with
  | nil => simp [computePositionsList]
  | cons c cs ih =>
      cases i with
      | zero => simp [computePositionsList]
      | succ k => simpa [computePositionsList] using ih k

/-- Position propagation with an arbitrary parent transform `T`: the cached
current transform of the node at any valid path equals `T` composed with
the motions of the joints along the path, in root-to-node order. -/
theorem computePositions_currentTransformation (cfg : List ℝ) :
    ∀ (p : List ℕ) (t : JTree) (T : Transform) (js : List Joint) (n : JTree),
      pathJoints t p = some js →
      getNode (computePositions cfg T t) p = some n →
      n.joint.currentTransformation =
        js.foldl (fun A j => A.comp (motionOf cfg j)) T := by
  intro p
  induction p with
  | nil =>
      intro t T js n hp hn
      cases t with
      | node d cs =>
          simp only [pathJoints, Option.some.injEq] at hp
          simp only [computePositions, getNode, Option.some.injEq] at hn
          subst hp
          subst hn
          simp [JTree.joint]
  | cons i p ih =>
      intro t T js n hp hn
      cases t with
      | node d cs =>
          simp only [pathJoints] at hp
          simp only [computePositions, getNode,
            computePositionsList_get] at hn
          cases hc : cs.get? i with
          | none =>
              rw [hc] at hp
              exact absurd hp (by simp)
          | some c =>
              rw [hc] at hp hn
              have hp' : (pathJoints c p).map (fun js => d :: js) = some js := hp
              have hn' :
                  getNode (computePositions cfg (T.comp (motionOf cfg d)) c) p
                    = some n := hn
              cases hjs : pathJoints c p with
              | none =>
                  rw [hjs] at hp'
                  simp at hp'
              | some js' =>
                  rw [hjs] at hp'
                  simp only [Option.map_some', Option.some.injEq] at hp'
                  subst hp'
                  simpa using ih c (T.comp (motionOf cfg d)) js' n hjs hn'

/-- Claim C1: for every kinematic tree and configuration vector, running
position propagation top-down (parent before child) with the identity
parent transform at the root leaves each joint's cached current transform
equal to the composition of the motions of all its ancestors and itself,
where each joint's motion is produced by its kind from the
configSize-sized slice of the configuration vector starting at
rankInConfiguration and composed with the parent's already-computed
transform. -/
theorem claimC1_computePosition_composes (cfg : List ℝ) (t : JTree)
    (p : List ℕ) (js : List Joint) (n : JTree)
    (hp : pathJoints t p = some js)
    (hn : getNode (computePositions cfg Transform.one t) p = some n) :
    n.joint.currentTransformation =
      js.foldl (fun A j => A.comp (motionOf cfg j)) Transform.one :=
  computePositions_currentTransformation cfg p t Transform.one js n hp hn

/-- A translation joint along the x axis at configuration rank 0. -/
def trJointX : Joint := { defaultJoint with kind := .translation ⟨1, 0, 0⟩ }

/-- A translation joint along the y axis at configuration/velocity
rank 1. -/
def trJointY : Joint :=
  { defaultJoint with
      kind := .translation ⟨0, 1, 0⟩
      rankInConfiguration := 1
      rankInVelocity := 1 }

/-- A two-joint chain of translation joints used by concrete witnesses. -/
def chainXY : JTree := .node trJointX [.node trJointY []]

/-- Witness for claim C1 on the concrete chain `chainXY` at configuration
`[2, 3]`, path `[0]`. -/
theorem claimC1_witness :
    pathJoints chainXY [0] = some [trJointX, trJointY] ∧
    getNode (computePositions [2, 3] Transform.one chainXY) [0] =
      some (.node
        { trJointY with currentTransformation := ⟨Mat3.one, ⟨2, 3, 0⟩⟩ } []) ∧
    (JTree.node
        { trJointY with currentTransformation := ⟨Mat3.one, ⟨2, 3, 0⟩⟩ }
        []).joint.currentTransformation =
      [trJointX, trJointY].foldl
        (fun A j => A.comp (motionOf [2, 3] j)) Transform.one := by
  have h1 : pathJoints chainXY [0] = some [trJointX, trJointY] := by
    simp [chainXY, pathJoints]
  have h2 : getNode (computePositions [2, 3] Transform.one chainXY) [0] =
      some (.node
        { trJointY with currentTransformation := ⟨Mat3.one, ⟨2, 3, 0⟩⟩ } []) := by
    norm_num [chainXY, computePositions, computePositionsList, getNode,
      motionOf, kindMotion, slice, trJointX, trJointY, defaultJoint,
      Transform.comp, Transform.one, Mat3.mulVec, Vec3.dot, Mat3.one,
      Vec3.smul, Mat3.mul, Mat3.col0, Mat3.col1, Mat3.col2,
      JointKind.configSize, List.getD]
  exact ⟨h1, h2,
    claimC1_computePosition_composes [2, 3] chainXY [0] _ _ h1 h2⟩

/-- Sum of a list of 3-vectors. -/
def vsum : List Vec3 → Vec3
  | [] => 0
  | v :: vs => v + vsum vs

mutual

/-- Modelled from the spec: the body of `Joint::computeMass` is not in the
sources.  Per spec §4.3, bottom-up aggregation: each joint's aggregate mass
is its own attached body's mass (zero if none) plus the sum of its
children's aggregate masses. -/
def computeMass : JTree → ℝ
  | .node d cs =>
      (match d.body with | some b => b.mass | none => 0) + computeMassList cs

/-- Aggregate mass of a list of sibling subtrees. -/
def computeMassList : List JTree → ℝ
  | [] => 0
  | c :: cs => computeMass c + computeMassList cs

end

mutual

/-- Modelled from the spec: the body of
`Joint::computeMassTimesCenterOfMass` is not in the sources.  Per spec
§4.3, each joint's aggregate mass-times-center-of-mass is its own body's
contribution (its mass times its center of mass expressed in the common
world frame through the joint's current transform) plus the sum of the
children's aggregate contributions. -/
def computeMassTimesCenterOfMass : JTree → Vec3
  | .node d cs =>
      (match d.body with
        | some b => b.mass • d.currentTransformation.apply b.localCom
        | none => 0) + computeMassTimesCenterOfMassList cs

/-- Aggregate mass-times-center-of-mass of a list of sibling subtrees. -/
def computeMassTimesCenterOfMassList : List JTree → Vec3
  | [] => 0
  | c :: cs => computeMassTimesCenterOfMass c
      + computeMassTimesCenterOfMassList cs

end

mutual

/-- All bodies attached anywhere in the tree, as pairs of the body's mass
and its center of mass expressed in the common world frame. -/
def bodiesOf : JTree → List (ℝ × Vec3)
  | .node d cs =>
      (match d.body with
        | some b => [(b.mass, d.currentTransformation.apply b.localCom)]
        | none => []) ++ bodiesOfList cs

/-- All bodies attached anywhere in a list of sibling subtrees. -/
def bodiesOfList : List JTree → List (ℝ × Vec3)
  | [] => []
  | c :: cs => bodiesOf c ++ bodiesOfList cs

end

/-- The mass-weighted average of a list of (mass, center-of-mass) pairs,
following the spec's words: the sum of mass-times-center contributions
divided by the total mass. -/
noncomputable def weightedAverageCom (L : List (ℝ × Vec3)) : Vec3 :=
  ((L.map Prod.fst).sum)⁻¹ • vsum (L.map fun mc => mc.1 • mc.2)

mutual

theorem computeMass_eq_sum (t : JTree) :
    computeMass t = ((bodiesOf t).map Prod.fst).sum := by
  cases t with
  | node d cs =>
      rw [computeMass, computeMassList_eq_sum cs, bodiesOf]
      cases d.body <;> simp

theorem computeMassList_eq_sum (ts : List JTree) :
    computeMassList ts = ((bodiesOfList ts).map Prod.fst).sum := by
  cases ts with
  | nil => simp [computeMassList, bodiesOfList]
  | cons c cs =>
      rw [computeMassList, computeMass_eq_sum c, computeMassList_eq_sum cs,
        bodiesOfList]
      simp

end

theorem vsum_append (xs ys : List Vec3) :
    vsum (xs ++ ys) = vsum xs + vsum ys := by
  induction xs with
  | nil => simp [vsum]
  | cons v vs ih =>
      simp [vsum, ih]
      exact ⟨by ring, by ring, by ring⟩

mutual

theorem computeMassTimesCenterOfMass_eq_sum (t : JTree) :
    computeMassTimesCenterOfMass t =
      vsum ((bodiesOf t).map fun mc => mc.1 • mc.2) := by
  cases t with
  | node d cs =>
      rw [computeMassTimesCenterOfMass,
        computeMassTimesCenterOfMassList_eq_sum cs, bodiesOf]
      cases d.body with
      | none => simp [vsum]
      | some b => simp [vsum]

theorem computeMassTimesCenterOfMassList_eq_sum (ts : List JTree) :
    computeMassTimesCenterOfMassList ts =
      vsum ((bodiesOfList ts).map fun mc => mc.1 • mc.2) := by
  cases ts with
  | nil => simp [computeMassTimesCenterOfMassList, bodiesOfList, vsum]
  | cons c cs =>
      rw [computeMassTimesCenterOfMassList,
        computeMassTimesCenterOfMass_eq_sum c,
        computeMassTimesCenterOfMassList_eq_sum cs, bodiesOfList]
      simp [vsum_append]

end

/-- Claim C2: after bottom-up mass aggregation, the root's `computeMass`
result equals the sum of the masses of all bodies attached anywhere in the
tree (a joint with no body contributing zero), and the root's aggregate
mass-times-center-of-mass divided by its aggregate mass equals the
mass-weighted average of all attached bodies' centers of mass expressed in
the common frame. -/
theorem claimC2_mass_aggregation (t : JTree) :
    computeMass t = ((bodiesOf t).map Prod.fst).sum ∧
    (computeMass t ≠ 0 →
      (computeMass t)⁻¹ • computeMassTimesCenterOfMass t =
        weightedAverageCom (bodiesOf t)) := by
  refine ⟨computeMass_eq_sum t, fun _ => ?_⟩
  rw [computeMass_eq_sum t, computeMassTimesCenterOfMass_eq_sum t,
    weightedAverageCom]

/-- A joint carrying a body of mass 1 centered at `(1, 0, 0)`. -/
def massJointA : Joint :=
  { defaultJoint with body := some ⟨1, ⟨1, 0, 0⟩⟩ }

/-- A joint carrying a body of mass 3 centered at `(0, 1, 0)`. -/
def massJointB : Joint :=
  { defaultJoint with body := some ⟨3, ⟨0, 1, 0⟩⟩ }

/-- A two-joint tree with bodies, used by the C2 witness. -/
def massTree : JTree := .node massJointA [.node massJointB []]

/-- Witness for claim C2 on the concrete two-body tree `massTree`. -/
theorem claimC2_witness :
    computeMass massTree ≠ 0 ∧
    (computeMass massTree)⁻¹ • computeMassTimesCenterOfMass massTree =
      weightedAverageCom (bodiesOf massTree) := by
  have hm : computeMass massTree ≠ 0 := by
    norm_num [massTree, computeMass, computeMassList, massJointA, massJointB,
      defaultJoint]
  exact ⟨hm, (claimC2_mass_aggregation massTree).2 hm⟩

/-- `Joint::numberChildJoints` (src lines 106–109): `children_.size ()`. -/
def Joint.numberChildJoints (j : Joint) : ℕ := j.children.length

/-- `Joint::childJoint` (src lines 111–114): `children_ [rank]`, an
unchecked `std::vector` subscript.  The source performs no range check and
reports no error; an out-of-range rank is answered by an unspecified value,
embedded here as the default joint id `0`. -/
def Joint.childJoint (j : Joint) (rank : ℕ) : ℕ := j.children.getD rank 0

/-- A collection of joint objects addressed by joint id, standing for the
heap of `Joint` instances the pointers of the source range over. -/
abbrev World := ℕ → Joint

/-- Modelled from the spec: the body of `Joint::addChildJoint` is not in
the sources.  Per spec §4.1 "Tree mutation": the call appends the argument
to the parent's ordered child sequence and records the back-reference, and
fails (mutating nothing) if the argument already has a parent. -/
def addChildJoint (w : World) (p c : ℕ) : World × Bool :=
  if (w c).parent.isSome then (w, false)
  else
    let w1 : World := fun j => if j = c then { w c with parent := some p } else w j
    let w2 : World := fun j =>
      if j = p then { w1 p with children := (w1 p).children ++ [c] } else w1 j
    (w2, true)

/-- Run a sequence of `addChildJoint` calls, each given as a
(parent id, child id) pair. -/
def runAddChildJoints (w : World) (calls : List (ℕ × ℕ)) : World :=
  calls.foldl (fun w pc => (addChildJoint w pc.1 pc.2).1) w

/-- The child ids successfully attached to the parent `p` by a sequence of
`addChildJoint` calls, in attach order. -/
def successfulAttaches (w : World) (p : ℕ) : List (ℕ × ℕ) → List ℕ
  | [] => []
  | pc :: rest =>
      (if (addChildJoint w pc.1 pc.2).2 = true ∧ pc.1 = p then [pc.2] else [])
        ++ successfulAttaches (addChildJoint w pc.1 pc.2).1 p rest

theorem addChildJoint_children (w : World) (pp c p : ℕ) :
    ((addChildJoint w pp c).1 p).children =
      if (addChildJoint w pp c).2 = true ∧ pp = p
      then (w p).children ++ [c] else (w p).children := by
  unfold addChildJoint
  by_cases h : (w c).parent.isSome
  · simp [h]
  · by_cases hp : pp = p
    · subst hp
      by_cases hc : pp = c <;> simp [h, hc]
    · have hp' : ¬ (p = pp) := fun hh => hp hh.symm
      by_cases hc : p = c
      · subst hc
        simp [h, hp, hp']
      · simp [h, hp, hp', hc]

theorem runAddChildJoints_children (calls : List (ℕ × ℕ)) :
    ∀ (w : World) (p : ℕ),
      ((runAddChildJoints w calls) p).children =
        (w p).children ++ successfulAttaches w p calls := by
  induction calls with
  | nil => intro w p; simp [runAddChildJoints, successfulAttaches]
  | cons pc rest ih =>
      intro w p
      have hrun : runAddChildJoints w (pc :: rest) =
          runAddChildJoints (addChildJoint w pc.1 pc.2).1 rest := rfl
      rw [hrun, ih, addChildJoint_children, successfulAttaches]
      by_cases h : (addChildJoint w pc.1 pc.2).2 = true ∧ pc.1 = p
      · obtain ⟨h1, h2⟩ := h
        subst h2
        simp [h1, List.append_assoc]
      · simp [h]

/-- Claim C3: each successful `addChildJoint` call appends the argument to
the end of the parent's ordered child sequence and sets the argument's
parent back-reference; a call whose argument already has a parent fails
and leaves every joint unchanged; and after any sequence of calls on a
parent that started with no children, `numberChildJoints` equals the
number of successful attaches and `childJoint i` returns the successfully
attached joints in attach order. -/
theorem claimC3_addChildJoint_sequence (w : World) (calls : List (ℕ × ℕ))
    (p c i : ℕ) :
    ((w c).parent = none →
      (addChildJoint w p c).2 = true ∧
      ((addChildJoint w p c).1 p).children = (w p).children ++ [c] ∧
      ((addChildJoint w p c).1 c).parent = some p) ∧
    ((w c).parent.isSome → addChildJoint w p c = (w, false)) ∧
    ((w p).children = [] →
      ((runAddChildJoints w calls) p).numberChildJoints =
        (successfulAttaches w p calls).length ∧
      (i < (successfulAttaches w p calls).length →
        ((runAddChildJoints w calls) p).childJoint i =
          (successfulAttaches w p calls).getD i 0)) := by
  refine ⟨fun hnone => ?_, fun hsome => ?_, fun hemp => ?_⟩
  · have hns : ¬ (w c).parent.isSome := by simp [hnone]
    refine ⟨by simp [addChildJoint, hns], ?_, ?_⟩
    · rw [addChildJoint_children]
      simp [addChildJoint, hns]
    · simp only [addChildJoint, hns, if_neg, not_false_iff, ite_false]
      by_cases hc : c = p <;> simp [hc]
  · simp [addChildJoint, hsome]
  · have hch := runAddChildJoints_children calls w p
    rw [hemp] at hch
    simp only [List.nil_append] at hch
    refine ⟨?_, fun hi => ?_⟩
    · simp [Joint.numberChildJoints, hch]
    · simp [Joint.childJoint, hch]

/-- The world in which every joint id holds a fresh default joint. -/
def emptyWorld : World := fun _ => defaultJoint

/-- A concrete call sequence: attach joint 1 under joint 0, joint 2 under
joint 0, then (invalidly) joint 2 under joint 1. -/
def callsC3 : List (ℕ × ℕ) := [(0, 1), (0, 2), (1, 2)]

/-- Witness for claim C3: on the concrete sequence `callsC3` over
`emptyWorld`, the third call fails (its argument already has a parent),
the successful attaches are `[1, 2]`, and `numberChildJoints` /
`childJoint` read them back in attach order. -/
theorem claimC3_witness :
    (emptyWorld 0).children = [] ∧
    successfulAttaches emptyWorld 0 callsC3 = [1, 2] ∧
    ((runAddChildJoints emptyWorld callsC3) 0).numberChildJoints =
      (successfulAttaches emptyWorld 0 callsC3).length ∧
    (1 < (successfulAttaches emptyWorld 0 callsC3).length) ∧
    ((runAddChildJoints emptyWorld callsC3) 0).childJoint 1 =
      (successfulAttaches emptyWorld 0 callsC3).getD 1 0 := by
  have hemp : (emptyWorld 0).children = [] := by
    simp [emptyWorld, defaultJoint]
  have hsucc : successfulAttaches emptyWorld 0 callsC3 = [1, 2] := by
    simp [callsC3, successfulAttaches, addChildJoint, emptyWorld,
      defaultJoint]
  have h3 := (claimC3_addChildJoint_sequence emptyWorld callsC3 0 0 1).2.2 hemp
  refine ⟨hemp, hsucc, h3.1, ?_, h3.2 ?_⟩ <;> rw [hsucc] <;> norm_num

/-- The error taxonomy of spec §7 for indexed accessors: (a) out-of-range
index, (c) unbounded-bound read. -/
inductive BoundError where
  | outOfRange : BoundError
  | unboundedRead : BoundError

instance : DecidableEq BoundError := fun a b => by
  cases a <;> cases b <;> first
    | exact isTrue rfl
    | exact isFalse (by intro h; cases h)

namespace Joint

/-- Modelled from the spec: the body of the `isBounded` setter (src line
123) is not in the sources.  Per spec §4.1 Bounds and §7(a), the accessor
indexes by DOF rank local to the joint (0‥numberDof−1) and an out-of-range
rank fails loudly. -/
def isBoundedSet (j : Joint) (rank : ℕ) (b : Bool) : Except BoundError Joint :=
  if rank < j.numberDof then
    .ok { j with boundFlags := fun r => if r = rank then b else j.boundFlags r }
  else .error .outOfRange

/-- Modelled from the spec: the body of the `isBounded` getter (src line
125) is not in the sources.  Same indexing contract as the setter. -/
def isBoundedGet (j : Joint) (rank : ℕ) : Except BoundError Bool :=
  if rank < j.numberDof then .ok (j.boundFlags rank) else .error .outOfRange

/-- Modelled from the spec: the body of the `lowerBound` setter (src line
131) is not in the sources. -/
def lowerBoundSet (j : Joint) (rank : ℕ) (v : ℝ) : Except BoundError Joint :=
  if rank < j.numberDof then
    .ok { j with lowerBounds := fun r => if r = rank then v else j.lowerBounds r }
  else .error .outOfRange

/-- Modelled from the spec: the body of the `upperBound` setter (src line
133) is not in the sources. -/
def upperBoundSet (j : Joint) (rank : ℕ) (v : ℝ) : Except BoundError Joint :=
  if rank < j.numberDof then
    .ok { j with upperBounds := fun r => if r = rank then v else j.upperBounds r }
  else .error .outOfRange

/-- Modelled from the spec: the body of the `lowerBound` getter (src line
127) is not in the sources.  Per spec §4.1 Bounds and §7(c), reading a
bound of a degree of freedom whose bound flag is not set is the
unbounded-bound-read contract violation, not a silent default. -/
def lowerBoundGet (j : Joint) (rank : ℕ) : Except BoundError ℝ :=
  if rank < j.numberDof then
    if j.boundFlags rank then .ok (j.lowerBounds rank)
    else .error .unboundedRead
  else .error .outOfRange

/-- Modelled from the spec: the body of the `upperBound` getter (src line
129) is not in the sources.  Same contract as the lower-bound getter. -/
def upperBoundGet (j : Joint) (rank : ℕ) : Except BoundError ℝ :=
  if rank < j.numberDof then
    if j.boundFlags rank then .ok (j.upperBounds rank)
    else .error .unboundedRead
  else .error .outOfRange

end Joint

/-- Claim C4: for a degree-of-freedom rank `r < numberDof`, after setting
the bound flag to true and writing a lower and an upper bound, reading the
flag and both bounds returns exactly what was written; and for any valid
rank whose bound flag is not set, reading the lower or upper bound fails
with the unbounded-bound-read error rather than returning a default
value. -/
theorem claimC4_bounds_roundtrip (j : Joint) (r : ℕ) (lo up : ℝ) :
    (r < j.numberDof →
      ∃ j3 : Joint,
        (j.isBoundedSet r true).bind
          (fun j1 => (j1.lowerBoundSet r lo).bind
            (fun j2 => j2.upperBoundSet r up)) = .ok j3 ∧
        j3.isBoundedGet r = .ok true ∧
        j3.lowerBoundGet r = .ok lo ∧
        j3.upperBoundGet r = .ok up) ∧
    (∀ (j' : Joint) (r' : ℕ), r' < j'.numberDof → j'.boundFlags r' = false →
      j'.lowerBoundGet r' = .error .unboundedRead ∧
      j'.upperBoundGet r' = .error .unboundedRead) := by
  constructor
  · intro h
    have h' : r < j.kind.numberDof := h
    refine ⟨{ j with
        boundFlags := fun r' => if r' = r then true else j.boundFlags r'
        lowerBounds := fun r' => if r' = r then lo else j.lowerBounds r'
        upperBounds := fun r' => if r' = r then up else j.upperBounds r' },
      ?_, ?_, ?_, ?_⟩ <;>
      simp [Joint.isBoundedSet, Joint.lowerBoundSet, Joint.upperBoundSet,
        Joint.isBoundedGet, Joint.lowerBoundGet, Joint.upperBoundGet,
        Joint.numberDof, h, h', Except.bind]
  · intro j' r' h hflag
    constructor <;>
      simp [Joint.lowerBoundGet, Joint.upperBoundGet, h, hflag]

/-- Witness for claim C4 on a translation joint (one degree of freedom) at
rank 0 with bounds `[-1, 2]`; its default bound flag is unset, so the
bound reads on the fresh joint report the unbounded-bound-read error. -/
theorem claimC4_witness :
    (0 < trJointX.numberDof) ∧
    (∃ j3 : Joint,
      (trJointX.isBoundedSet 0 true).bind
        (fun j1 => (j1.lowerBoundSet 0 (-1)).bind
          (fun j2 => j2.upperBoundSet 0 2)) = .ok j3 ∧
      j3.isBoundedGet 0 = .ok true ∧
      j3.lowerBoundGet 0 = .ok (-1) ∧
      j3.upperBoundGet 0 = .ok 2) ∧
    (trJointX.boundFlags 0 = false) ∧
    trJointX.lowerBoundGet 0 = .error .unboundedRead ∧
    trJointX.upperBoundGet 0 = .error .unboundedRead := by
  have hdof : 0 < trJointX.numberDof := by
    simp [trJointX, defaultJoint, Joint.numberDof, JointKind.numberDof]
  have hflag : trJointX.boundFlags 0 = false := by
    simp [trJointX, defaultJoint]
  have h := claimC4_bounds_roundtrip trJointX 0 (-1) 2
  exact ⟨hdof, h.1 hdof, hflag, h.2 trJointX 0 hdof hflag⟩

/-- Follows the spec's words (§7(a) and its propagation policy): a child
accessed by an index outside the joint's valid range must fail loudly with
a reported error at the point of misuse.  This is the behavior the claim
asserts, stated as a checked accessor to compare with the source's
`childJoint`. -/
def Joint.childJointSpec (j : Joint) (rank : ℕ) : Except BoundError ℕ :=
  if rank < j.numberChildJoints then .ok (j.children.getD rank 0)
  else .error .outOfRange

/-- Counterexample for claim C5: on a joint with no children, the source's
`childJoint 0` (the unchecked `children_ [0]`) silently answers with a
value — the default id 0 — although rank 0 is out of range, where the
claimed behavior is the reported out-of-range error. -/
theorem claimC5_counterexample :
    defaultJoint.numberChildJoints = 0 ∧
    defaultJoint.childJoint 0 = 0 ∧
    defaultJoint.childJointSpec 0 = .error .outOfRange := by
  refine ⟨?_, ?_, ?_⟩ <;>
    simp [Joint.numberChildJoints, Joint.childJoint, Joint.childJointSpec,
      defaultJoint]

/-- Claim C5 (amended): accessing a bound by a rank outside
0‥numberDof−1 fails loudly with a reported out-of-range error (and is
never answered by a clamp or arbitrary value); but accessing a child by an
index outside 0‥numberChildJoints−1 is not range-checked by the source:
`children_ [rank]` silently yields an unspecified value (the default id in
this embedding), not a reported error. -/
theorem claimC5_amended_out_of_range (j : Joint) (rank : ℕ) :
    (j.numberDof ≤ rank →
      j.isBoundedGet rank = .error .outOfRange ∧
      j.lowerBoundGet rank = .error .outOfRange ∧
      j.upperBoundGet rank = .error .outOfRange) ∧
    (j.numberChildJoints ≤ rank → j.childJoint rank = 0) := by
  constructor
  · intro h
    have h' : ¬ rank < j.numberDof := not_lt.mpr h
    refine ⟨?_, ?_, ?_⟩ <;>
      simp [Joint.isBoundedGet, Joint.lowerBoundGet, Joint.upperBoundGet, h']
  · intro h
    exact List.getD_eq_default _ _ h

/-- Witness for the amended claim C5 on a fresh default joint (zero
degrees of freedom, no children) at rank 0. -/
theorem claimC5_witness :
    (defaultJoint.numberDof ≤ 0 ∧
      defaultJoint.isBoundedGet 0 = .error .outOfRange ∧
      defaultJoint.lowerBoundGet 0 = .error .outOfRange ∧
      defaultJoint.upperBoundGet 0 = .error .outOfRange) ∧
    (defaultJoint.numberChildJoints ≤ 0 ∧
      defaultJoint.childJoint 0 = 0) := by
  have hdof : defaultJoint.numberDof ≤ 0 := by
    simp [defaultJoint, Joint.numberDof, JointKind.numberDof]
  have hch : defaultJoint.numberChildJoints ≤ 0 := by
    simp [defaultJoint, Joint.numberChildJoints]
  have h := claimC5_amended_out_of_range defaultJoint 0
  exact ⟨⟨hdof, h.1 hdof⟩, ⟨hch, h.2 hch⟩⟩

/-- Normalization is invariant under positive rescaling of the
quaternion. -/
theorem Quat.normalize_smul (c : ℝ) (q : Quat) (hc : 0 < c) :
    (c • q).normalize = q.normalize := by
  have hs : Real.sqrt ((c • q).norm2) = c * Real.sqrt q.norm2 := by
    rw [norm2_smul, Real.sqrt_mul (sq_nonneg c), Real.sqrt_sq hc.le]
  unfold normalize
  rw [hs]
  ext <;> simp only [smul_quat_def] <;>
    rw [one_div_mul_eq_div, one_div_mul_eq_div,
      mul_div_mul_left _ _ (ne_of_gt hc)]

/-- The Spherical joint's motion is invariant under positive rescaling of
its configuration slice: the rotation is built from the normalized
quaternion, never from the raw slice. -/
theorem so3Motion_smul (c : ℝ) (q : Quat) (hc : 0 < c) :
    so3Motion (c • q) = so3Motion q := by
  unfold so3Motion
  rw [Quat.norm2_smul]
  by_cases h : q.norm2 = 0
  · simp [h]
  · have hne : c ^ 2 * q.norm2 ≠ 0 :=
      mul_ne_zero (pow_ne_zero 2 (ne_of_gt hc)) h
    have hnm := Quat.normalize_smul c q hc
    simp only [Quat.smul_quat_def] at hnm
    simp [h, hne, hnm]

/-- Claim C6: the Spherical joint's `computeMotion` normalizes its
4-scalar quaternion slice to unit length before building the rotation —
the quaternion actually used has unit norm whenever the slice is nonzero,
and rescaling the slice by any positive factor leaves the computed motion
unchanged, so unit length is never assumed — and a degenerate
(zero-norm) slice falls back to the identity rotation with only a
recoverable anomaly reported instead of a hard failure. -/
theorem claimC6_so3_normalization (q : Quat) (c : ℝ) :
    (q.norm2 ≠ 0 →
      (so3Motion q).1 = rotOfQuat q.normalize ∧ q.normalize.norm2 = 1) ∧
    (0 < c → so3Motion (c • q) = so3Motion q) ∧
    (q.norm2 = 0 → so3Motion q = (Mat3.one, .recoverableAnomaly)) := by
  refine ⟨fun h => ⟨?_, Quat.norm2_normalize q h⟩,
    fun hc => so3Motion_smul c q hc, fun h => ?_⟩
  · simp [so3Motion, h]
  · simp [so3Motion, h]

/-- Witness for claim C6 at the unit quaternion `(1,0,0,0)` (nonzero
slice, rescaled by 2) and at the zero quaternion (degenerate slice). -/
theorem claimC6_witness :
    (Quat.norm2 ⟨1, 0, 0, 0⟩ ≠ 0 ∧
      (so3Motion ⟨1, 0, 0, 0⟩).1 = rotOfQuat (Quat.normalize ⟨1, 0, 0, 0⟩) ∧
      (Quat.normalize ⟨1, 0, 0, 0⟩).norm2 = 1) ∧
    ((0 : ℝ) < 2 ∧
      so3Motion ((2 : ℝ) • (⟨1, 0, 0, 0⟩ : Quat)) = so3Motion ⟨1, 0, 0, 0⟩) ∧
    (Quat.norm2 ⟨0, 0, 0, 0⟩ = 0 ∧
      so3Motion ⟨0, 0, 0, 0⟩ = (Mat3.one, .recoverableAnomaly)) := by
  have hn : Quat.norm2 ⟨1, 0, 0, 0⟩ ≠ 0 := by norm_num [Quat.norm2]
  have hz : Quat.norm2 ⟨0, 0, 0, 0⟩ = 0 := by norm_num [Quat.norm2]
  have hc : (0 : ℝ) < 2 := by norm_num
  have h1 := claimC6_so3_normalization ⟨1, 0, 0, 0⟩ 2
  have h2 := claimC6_so3_normalization ⟨0, 0, 0, 0⟩ 2
  exact ⟨⟨hn, h1.1 hn⟩, ⟨hc, h1.2.1 hc⟩, ⟨hz, h2.2.2 hz⟩⟩

/-- The `i`-th basis rotation axis used by a Spherical joint's three
columns. -/
def so3Basis (i : ℕ) : Vec3 :=
  if i = 0 then ⟨1, 0, 0⟩ else if i = 1 then ⟨0, 1, 0⟩ else ⟨0, 0, 1⟩

/-- Modelled from the spec: the bodies of the `writeSubJacobian` overrides
are not in the sources.  Content of the column that joint `J` writes for
its `i`-th degree of freedom into the Jacobian block of a joint `D` of its
subtree, per the spec §4.2 variant table: rotational axes are rotated into
the world frame by `J`'s current rotation, and rotational degrees of
freedom add the transport term axis × Δp with Δp the offset from `J`'s
origin to `D`'s origin at the current configuration. -/
def jacColumnOf (J D : Joint) (i : ℕ) : JacCol :=
  match J.kind with
  | .anchor => JacCol.zero
  | .so3 =>
      let axis := J.currentTransformation.rot.mulVec (so3Basis i)
      ⟨axis, axis.cross
        (D.currentTransformation.trans - J.currentTransformation.trans)⟩
  | .rotation a =>
      let axis := J.currentTransformation.rot.mulVec a
      ⟨axis, axis.cross
        (D.currentTransformation.trans - J.currentTransformation.trans)⟩
  | .translation a => ⟨0, J.currentTransformation.rot.mulVec a⟩

/-- Modelled from the spec and the header's documentation of
`writeSubJacobian` (src lines 182–192): the write fills exactly the
columns from `rankInVelocity` to `rankInVelocity + numberDof − 1` of the
child's block and leaves every other column unchanged. -/
def writeSubJacobian (J D : Joint) (blk : ℕ → JacCol) : ℕ → JacCol :=
  fun col =>
    if J.rankInVelocity ≤ col ∧ col < J.rankInVelocity + J.numberDof
    then jacColumnOf J D (col - J.rankInVelocity)
    else blk col

mutual

/-- Modelled from the spec: the body of `Joint::computeJacobian` is not in
the sources.  Per spec §4.1, for every joint `J` and every joint `D` in
the subtree rooted at `J` (including `J` itself), `J` writes into `D`'s
Jacobian block the columns of `J`'s own degrees of freedom; implemented
top-down carrying the snapshots of the ancestors as the writer list. -/
def computeJacobians (ws : List Joint) : JTree → JTree
  | .node d cs =>
      .node
        { d with jacobian :=
            (ws ++ [d]).foldl (fun b J => writeSubJacobian J d b) d.jacobian }
        (computeJacobiansList (ws ++ [d]) cs)

/-- Jacobian assembly over a list of sibling subtrees. -/
def computeJacobiansList (ws : List Joint) : List JTree → List JTree
  | [] => []
  | c :: cs => computeJacobians ws c :: computeJacobiansList ws cs

end

/-- Column `col` lies in the range of columns owned by joint `J`:
`rankInVelocity ≤ col < rankInVelocity + numberDof`. -/
def velRange (J : Joint) (col : ℕ) : Prop :=
  J.rankInVelocity ≤ col ∧ col < J.rankInVelocity + J.numberDof

/-- Two joints own disjoint column ranges of the velocity vector (spec §3
invariant: ranks never overlap between joints). -/
def rangesDisjoint (a b : Joint) : Prop :=
  a.rankInVelocity + a.numberDof ≤ b.rankInVelocity ∨
  b.rankInVelocity + b.numberDof ≤ a.rankInVelocity

theorem velRange_not_of_disjoint {a b : Joint} {col : ℕ}
    (hd : rangesDisjoint a b) (ha : velRange a col) : ¬ velRange b col := by
  rcases hd with h | h <;> intro hb <;>
    rcases ha with ⟨ha1, ha2⟩ <;> rcases hb with ⟨hb1, hb2⟩ <;> omega

theorem foldl_writeSubJacobian_of_notin (D : Joint) (col : ℕ) :
    ∀ (L : List Joint) (b : ℕ → JacCol),
      (∀ J ∈ L, ¬ velRange J col) →
      (L.foldl (fun b J => writeSubJacobian J D b) b) col = b col := by
  intro L
  induction L with
  | nil => intro b _; simp
  | cons K L ih =>
      intro b h
      have hK : ¬ velRange K col := h K (by simp)
      have hrest : ∀ J ∈ L, ¬ velRange J col := fun J hJ => h J (by simp [hJ])
      simp only [List.foldl_cons]
      rw [ih _ hrest]
      simp [writeSubJacobian, velRange] at hK ⊢
      intro h1 h2
      exact absurd (hK h1) (by omega)

theorem foldl_writeSubJacobian_of_velRange (D J : Joint) (col : ℕ) :
    ∀ (L : List Joint) (b : ℕ → JacCol),
      J ∈ L → velRange J col → L.Pairwise rangesDisjoint →
      (L.foldl (fun b J => writeSubJacobian J D b) b) col =
        jacColumnOf J D (col - J.rankInVelocity) := by
  intro L
  induction L with
  | nil => intro b h; cases h
  | cons K L ih =>
      intro b hmem hcol hpw
      rcases List.mem_cons.mp hmem with heq | hmem'
      · subst heq
        have hdisj : ∀ K' ∈ L, rangesDisjoint J K' :=
          (List.pairwise_cons.mp hpw).1
        have hnot : ∀ K' ∈ L, ¬ velRange K' col := fun K' hK' =>
          velRange_not_of_disjoint (hdisj K' hK') hcol
        simp only [List.foldl_cons]
        rw [foldl_writeSubJacobian_of_notin D col L _ hnot]
        simp [writeSubJacobian, hcol.1, hcol.2]
      · exact ih _ hmem' hcol (List.pairwise_cons.mp hpw).2

theorem computeJacobiansList_get (ws : List Joint) (ts : List JTree)
    (i : ℕ) :
    (computeJacobiansList ws ts).get? i =
      (ts.get? i).map (computeJacobians ws) := by
  induction ts generalizing i with
  | nil => simp [computeJacobiansList]
  | cons c cs ih =>
      cases i with
      | zero => simp [computeJacobiansList]
      | succ k => simpa [computeJacobiansList] using ih k

/-- At any valid path, Jacobian assembly started with writer list `ws`
replaces the node's block by the sequential writes of `ws`, its path
ancestors and itself, and changes nothing else about the joint. -/
theorem getNode_computeJacobians :
    ∀ (p : List ℕ) (t : JTree) (ws : List Joint) (js : List Joint)
      (m n : JTree),
      pathJoints t p = some js →
      getNode t p = some m →
      getNode (computeJacobians ws t) p = some n →
      n.joint =
        { m.joint with
            jacobian := (ws ++ js).foldl
              (fun b J => writeSubJacobian J m.joint b) m.joint.jacobian } := by
  intro p
  induction p with
  | nil =>
      intro t ws js m n hp hm hn
      cases t with
      | node d cs =>
          simp only [pathJoints, Option.some.injEq] at hp
          simp only [getNode, Option.some.injEq] at hm
          simp only [computeJacobians, getNode, Option.some.injEq] at hn
          subst hp
          subst hm
          subst hn
          simp [JTree.joint]
  | cons i p ih =>
      intro t ws js m n hp hm hn
      cases t with
      | node d cs =>
          simp only [pathJoints] at hp
          simp only [getNode] at hm
          simp only [computeJacobians, getNode,
            computeJacobiansList_get] at hn
          cases hc : cs.get? i with
          | none =>
              rw [hc] at hp
              simp at hp
          | some c =>
              rw [hc] at hp hm hn
              have hp' : (pathJoints c p).map (fun js => d :: js) = some js :=
                hp
              have hn' :
                  getNode (computeJacobians (ws ++ [d]) c) p = some n := hn
              cases hjs : pathJoints c p with
              | none =>
                  rw [hjs] at hp'
                  simp at hp'
              | some js' =>
                  rw [hjs] at hp'
                  simp only [Option.map_some', Option.some.injEq] at hp'
                  subst hp'
                  have := ih c (ws ++ [d]) js' m n hjs hm hn'
                  simpa [List.append_assoc] using this

mutual

/-- All joints of a tree, in preorder. -/
def allJoints : JTree → List Joint
  | .node d cs => d :: allJointsList cs

/-- All joints of a list of sibling subtrees, in preorder. -/
def allJointsList : List JTree → List Joint
  | [] => []
  | c :: cs => allJoints c ++ allJointsList cs

end

theorem allJoints_sublist_of_mem :
    ∀ (ts : List JTree) (c : JTree), c ∈ ts →
      (allJoints c).Sublist (allJointsList ts) := by
  intro ts
  induction ts with
  | nil => intro c h; cases h
  | cons t ts ih =>
      intro c h
      rcases List.mem_cons.mp h with heq | hmem
      · subst heq
        simp only [allJointsList]
        exact List.sublist_append_left _ _
      · refine (ih c hmem).trans ?_
        simp only [allJointsList]
        exact List.sublist_append_right (allJoints t) (allJointsList ts)

theorem pathJoints_sublist :
    ∀ (p : List ℕ) (t : JTree) (js : List Joint),
      pathJoints t p = some js → js.Sublist (allJoints t) := by
  intro p
  induction p with
  | nil =>
      intro t js hp
      cases t with
      | node d cs =>
          simp only [pathJoints, Option.some.injEq] at hp
          subst hp
          simp [allJoints]
  | cons i p ih =>
      intro t js hp
      cases t with
      | node d cs =>
          simp only [pathJoints] at hp
          cases hc : cs.get? i with
          | none => rw [hc] at hp; simp at hp
          | some c =>
              rw [hc] at hp
              have hp' : (pathJoints c p).map (fun js => d :: js) = some js :=
                hp
              cases hjs : pathJoints c p with
              | none => rw [hjs] at hp'; simp at hp'
              | some js' =>
                  rw [hjs] at hp'
                  simp only [Option.map_some', Option.some.injEq] at hp'
                  subst hp'
                  have hsub : js'.Sublist (allJointsList cs) :=
                    (ih c js' hjs).trans
                      (allJoints_sublist_of_mem cs c (List.get?_mem hc))
                  simpa [allJoints] using hsub.cons₂ d

/-- Claim C9: during one Jacobian assembly pass over any tree whose
joints own pairwise disjoint velocity-rank ranges, the final Jacobian
block of any joint `D` holds, in any column owned by a joint `J` on the
path from the root to `D` (an ancestor of `D` or `D` itself), exactly
`J`'s own contribution â no other joint writes it â and any column owned
by no joint on that path is left unchanged from `D`'s block before the
pass. -/
theorem claimC9_jacobian_column_ownership (t : JTree) (p : List ℕ)
    (js : List Joint) (m n : JTree) (col : ℕ) (J : Joint)
    (hdisj : (allJoints t).Pairwise rangesDisjoint)
    (hp : pathJoints t p = some js)
    (hm : getNode t p = some m)
    (hn : getNode (computeJacobians [] t) p = some n) :
    (J ∈ js → velRange J col →
      n.joint.jacobian col = jacColumnOf J m.joint (col - J.rankInVelocity)) ∧
    ((∀ K ∈ js, ¬ velRange K col) →
      n.joint.jacobian col = m.joint.jacobian col) := by
  have hjoint := getNode_computeJacobians p t [] js m n hp hm hn
  have hpw : js.Pairwise rangesDisjoint :=
    hdisj.sublist (pathJoints_sublist p t js hp)
  constructor
  · intro hmem hcol
    rw [hjoint]
    simpa using
      foldl_writeSubJacobian_of_velRange m.joint J col js m.joint.jacobian
        hmem hcol hpw
  · intro hnone
    rw [hjoint]
    simpa using
      foldl_writeSubJacobian_of_notin m.joint col js m.joint.jacobian hnone

/-- Witness for claim C9 on the two-joint chain `chainXY` at path `[0]`
and column 0, owned by the root joint. -/
theorem claimC9_witness :
    ((allJoints chainXY).Pairwise rangesDisjoint ∧
      pathJoints chainXY [0] = some [trJointX, trJointY] ∧
      getNode chainXY [0] = some (.node trJointY []) ∧
      getNode (computeJacobians [] chainXY) [0] =
        some (.node
          { trJointY with
              jacobian := writeSubJacobian trJointY trJointY
                (writeSubJacobian trJointX trJointY trJointY.jacobian) } []) ∧
      trJointX ∈ [trJointX, trJointY] ∧ velRange trJointX 0) ∧
    (JTree.node
        { trJointY with
            jacobian := writeSubJacobian trJointY trJointY
              (writeSubJacobian trJointX trJointY trJointY.jacobian) }
        []).joint.jacobian 0 =
      jacColumnOf trJointX ((JTree.node trJointY []).joint)
        (0 - trJointX.rankInVelocity) := by
  have hdisj : (allJoints chainXY).Pairwise rangesDisjoint := by
    simp [chainXY, allJoints, allJointsList, rangesDisjoint, trJointX,
      trJointY, defaultJoint, Joint.numberDof, JointKind.numberDof]
  have hp : pathJoints chainXY [0] = some [trJointX, trJointY] := by
    simp [chainXY, pathJoints]
  have hm : getNode chainXY [0] = some (.node trJointY []) := by
    simp [chainXY, getNode]
  have hn : getNode (computeJacobians [] chainXY) [0] =
      some (.node
        { trJointY with
            jacobian := writeSubJacobian trJointY trJointY
              (writeSubJacobian trJointX trJointY trJointY.jacobian) } []) := by
    simp [chainXY, computeJacobians, computeJacobiansList, getNode]
  have hmem : trJointX ∈ [trJointX, trJointY] := by simp
  have hcol : velRange trJointX 0 := by
    simp [velRange, trJointX, defaultJoint, Joint.numberDof,
      JointKind.numberDof]
  exact ⟨⟨hdisj, hp, hm, hn, hmem, hcol⟩,
    (claimC9_jacobian_column_ownership chainXY [0] [trJointX, trJointY]
      (.node trJointY []) _ 0 trJointX hdisj hp hm hn).1 hmem hcol⟩

/-- An anchor joint whose initial position is the identity contributes the
identity motion. -/
theorem motionOf_anchor (cfg : List ℝ) (a : Joint) (ha : a.kind = .anchor)
    (hi : a.initialPosition = Transform.one) :
    motionOf cfg a = Transform.one := by
  simp [motionOf, ha, hi, kindMotion]

/-- An anchor joint has no degrees of freedom, so its `writeSubJacobian`
leaves every column of every block unchanged. -/
theorem writeSubJacobian_anchor (J D : Joint) (blk : ℕ → JacCol)
    (h : J.kind = .anchor) : writeSubJacobian J D blk = blk := by
  funext col
  simp only [writeSubJacobian, Joint.numberDof, h, JointKind.numberDof]
  have : ¬ (J.rankInVelocity ≤ col ∧ col < J.rankInVelocity + 0) := by omega
  simp [this]

mutual

theorem computeJacobians_skip_anchor (a : Joint) (ha : a.kind = .anchor) :
    ∀ (t : JTree) (ws1 ws2 : List Joint),
      computeJacobians (ws1 ++ a :: ws2) t = computeJacobians (ws1 ++ ws2) t
  | .node d cs, ws1, ws2 => by
      simp only [computeJacobians, List.append_assoc, List.cons_append]
      have hf : ∀ b : ℕ → JacCol,
          List.foldl (fun b J => writeSubJacobian J d b) b
            (ws1 ++ a :: (ws2 ++ [d])) =
          List.foldl (fun b J => writeSubJacobian J d b) b
            (ws1 ++ (ws2 ++ [d])) := by
        intro b
        rw [List.foldl_append, List.foldl_append, List.foldl_cons,
          writeSubJacobian_anchor a d _ ha]
      rw [hf, computeJacobiansList_skip_anchor a ha cs ws1 (ws2 ++ [d])]

theorem computeJacobiansList_skip_anchor (a : Joint) (ha : a.kind = .anchor) :
    ∀ (ts : List JTree) (ws1 ws2 : List Joint),
      computeJacobiansList (ws1 ++ a :: ws2) ts =
        computeJacobiansList (ws1 ++ ws2) ts
  | [], _, _ => rfl
  | c :: cs, ws1, ws2 => by
      simp only [computeJacobiansList]
      rw [computeJacobians_skip_anchor a ha c ws1 ws2,
        computeJacobiansList_skip_anchor a ha cs ws1 ws2]

end

theorem computePositionsList_append (cfg : List ℝ) (T : Transform)
    (as bs : List JTree) :
    computePositionsList cfg T (as ++ bs) =
      computePositionsList cfg T as ++ computePositionsList cfg T bs := by
  induction as with
  | nil => simp [computePositionsList]
  | cons c cs ih => simp [computePositionsList, ih]

theorem computeJacobiansList_append (ws : List Joint) (as bs : List JTree) :
    computeJacobiansList ws (as ++ bs) =
      computeJacobiansList ws as ++ computeJacobiansList ws bs := by
  induction as with
  | nil => simp [computeJacobiansList]
  | cons c cs ih => simp [computeJacobiansList, ih]

mutual

/-- Number of joints in a tree. -/
def countNodes : JTree → ℕ
  | .node _ cs => 1 + countNodesList cs

/-- Number of joints in a list of sibling subtrees. -/
def countNodesList : List JTree → ℕ
  | [] => 0
  | c :: cs => countNodes c + countNodesList cs

end

mutual

/-- The observable per-joint outcome of the two passes: each joint's
cached current transform and Jacobian block, in preorder. -/
def results : JTree → List (Transform × (ℕ → JacCol))
  | .node d cs => (d.currentTransformation, d.jacobian) :: resultsList cs

/-- Flattened per-joint outcomes of a list of sibling subtrees. -/
def resultsList : List JTree → List (Transform × (ℕ → JacCol))
  | [] => []
  | c :: cs => results c ++ resultsList cs

end

theorem resultsList_append (as bs : List JTree) :
    resultsList (as ++ bs) = resultsList as ++ resultsList bs := by
  induction as with
  | nil => simp [resultsList]
  | cons c cs ih => simp [resultsList, ih]

mutual

theorem results_passes_length (t : JTree) :
    ∀ (cfg : List ℝ) (T : Transform) (ws : List Joint),
      (results (computeJacobians ws (computePositions cfg T t))).length =
        countNodes t := by
  cases t with
  | node d cs =>
      intro cfg T ws
      simp only [computePositions, computeJacobians, results, countNodes,
        List.length_cons]
      rw [resultsList_passes_length cs]
      omega

theorem resultsList_passes_length (ts : List JTree) :
    ∀ (cfg : List ℝ) (T : Transform) (ws : List Joint),
      (resultsList (computeJacobiansList ws
        (computePositionsList cfg T ts))).length = countNodesList ts := by
  cases ts with
  | nil => intro cfg T ws; simp [computePositionsList, computeJacobiansList,
      resultsList, countNodesList]
  | cons c cs =>
      intro cfg T ws
      simp only [computePositionsList, computeJacobiansList, resultsList,
        countNodesList, List.length_append]
      rw [results_passes_length c, resultsList_passes_length cs]

end

theorem eraseIdx_append_length {α : Type} (xs : List α) (y : α)
    (ys : List α) : (xs ++ y :: ys).eraseIdx xs.length = xs ++ ys := by
  induction xs with
  | nil => simp [List.eraseIdx]
  | cons x xs ih => simp [List.eraseIdx, ih]

/-- Jacobian assembly on a node whose joint is an anchor: the anchor joins
the writer list of its subtree but, having no degrees of freedom, writes
nothing, so the subtree is assembled exactly as with the anchor absent. -/
theorem computeJacobians_anchor_node (ws : List Joint) (a1 : Joint)
    (ha : a1.kind = .anchor) (pc : JTree) :
    computeJacobians ws (.node a1 [pc]) =
      .node
        { a1 with
            jacobian := (ws ++ [a1]).foldl
              (fun b J => writeSubJacobian J a1 b) a1.jacobian }
        [computeJacobians ws pc] := by
  simp only [computeJacobians, computeJacobiansList]
  rw [computeJacobians_skip_anchor a1 ha pc ws []]
  rw [List.append_nil]

/-- Claim C7: inserting an Anchor joint with identity initial transform
between a parent joint and one of its child subtrees yields, after the
position and Jacobian passes (run under any ancestor transform `T` and any
ancestor writer list `ws`), exactly the same current transform and the
same Jacobian block for every other joint as the tree in which the Anchor
is absent and the parent and the child subtree are directly connected:
erasing the anchor's own entry from the flattened per-joint results of the
first tree gives precisely the results of the second. -/
theorem claimC7_anchor_transparent (cfg : List ℝ) (T : Transform)
    (ws : List Joint) (dp a : Joint) (c : JTree) (pre post : List JTree)
    (ha : a.kind = .anchor) (hi : a.initialPosition = Transform.one) :
    (results (computeJacobians ws (computePositions cfg T
        (.node dp (pre ++ .node a [c] :: post))))).eraseIdx
      (1 + countNodesList pre) =
    results (computeJacobians ws (computePositions cfg T
        (.node dp (pre ++ c :: post)))) := by
  have hmot : motionOf cfg a = Transform.one := motionOf_anchor cfg a ha hi
  simp only [computePositions, computePositionsList_append,
    computePositionsList, hmot, Transform.comp_one]
  simp only [computeJacobians, computeJacobiansList_append,
    computeJacobiansList]
  have hskip := computeJacobians_skip_anchor
    { a with currentTransformation := T.comp (motionOf cfg dp) }
    (by exact ha)
    (computePositions cfg (T.comp (motionOf cfg dp)) c)
    (ws ++ [{ dp with currentTransformation := T.comp (motionOf cfg dp) }])
    []
  rw [List.append_nil] at hskip
  rw [hskip]
  simp only [results, resultsList_append, resultsList,
    List.append_nil, List.cons_append, List.append_assoc]
  rw [Nat.add_comm 1 (countNodesList pre), List.eraseIdx_cons_succ]
  rw [show countNodesList pre =
    (resultsList (computeJacobiansList
      (ws ++ [{ dp with currentTransformation := T.comp (motionOf cfg dp) }])
      (computePositionsList cfg (T.comp (motionOf cfg dp)) pre))).length from
    (resultsList_passes_length pre cfg (T.comp (motionOf cfg dp))
      (ws ++ [{ dp with
        currentTransformation := T.comp (motionOf cfg dp) }])).symm]
  rw [eraseIdx_append_length]

/-- Witness for claim C7: a default (anchor, identity) joint inserted
between the two translation joints of `chainXY`. -/
theorem claimC7_witness :
    defaultJoint.kind = .anchor ∧
    defaultJoint.initialPosition = Transform.one ∧
    (results (computeJacobians [] (computePositions [2, 3] Transform.one
        (.node trJointX
          ([] ++ .node defaultJoint [.node trJointY []] :: []))))).eraseIdx
      (1 + countNodesList []) =
    results (computeJacobians [] (computePositions [2, 3] Transform.one
        (.node trJointX ([] ++ .node trJointY [] :: [])))) := by
  have h1 : defaultJoint.kind = .anchor := rfl
  have h2 : defaultJoint.initialPosition = Transform.one := rfl
  exact ⟨h1, h2,
    claimC7_anchor_transparent [2, 3] Transform.one [] trJointX defaultJoint
      (.node trJointY []) [] [] h1 h2⟩

/-- The root of the claim C8 scenario: an axial-rotation joint about the
unit z axis, configuration/velocity rank 0, identity initial position. -/
def rotJointZ : Joint := { defaultJoint with kind := .rotation ⟨0, 0, 1⟩ }

/-- The child of the claim C8 scenario: an axial-translation joint along
the unit x axis, configuration/velocity rank 1, identity initial
position. -/
def trChildX : Joint :=
  { defaultJoint with
      kind := .translation ⟨1, 0, 0⟩
      rankInConfiguration := 1
      rankInVelocity := 1 }

/-- The two-joint chain of claim C8. -/
def chainC8 : JTree := .node rotJointZ [.node trChildX []]

/-- Claim C8: on the two-joint chain (root axial-rotation about unit Z,
child axial-translation along unit X) at configuration
(angle = 90°, length = 1), after position propagation the child joint's
origin lies at world coordinates (0, 1, 0), and after Jacobian assembly
the column of the child's Jacobian for the parent's angle degree of
freedom has angular part (0, 0, 1) and linear part (−1, 0, 0). -/
theorem claimC8_rotation_translation_chain :
    (getNode (computeJacobians [] (computePositions [Real.pi / 2, 1]
        Transform.one chainC8)) [0]).map
        (fun n => (n.joint.currentTransformation.trans, n.joint.jacobian 0)) =
      some (⟨0, 1, 0⟩, ⟨⟨0, 0, 1⟩, ⟨-1, 0, 0⟩⟩) := by
  norm_num [chainC8, rotJointZ, trChildX, defaultJoint, computePositions,
    computePositionsList, computeJacobians, computeJacobiansList, getNode,
    motionOf, kindMotion, slice, rotationAboutAxis, crossMat, outerMat,
    Transform.comp, Transform.one, Mat3.mul, Mat3.mulVec, Mat3.one,
    Mat3.col0, Mat3.col1, Mat3.col2, Vec3.dot, Vec3.cross, Vec3.smul,
    writeSubJacobian, jacColumnOf, velRange, Joint.numberDof,
    JointKind.numberDof, JointKind.configSize, List.getD,
    Real.cos_pi_div_two, Real.sin_pi_div_two, JTree.joint, JacCol.zero]

/-- `Joint::name` setter (src lines 56–59): `name_ = name;`. -/
def Joint.setName (j : Joint) (s : String) : Joint := { j with name := s }

/-- Claim C10: setting the name and reading it back returns exactly the
string that was set, and the setter changes no other observable field of
the joint — kind, initial position, ranks, cached transform, Jacobian,
bound flags and values, mass aggregates, parent, children and body are all
unchanged. -/
theorem claimC10_name_roundtrip (j : Joint) (s : String) :
    (j.setName s).name = s ∧
    (j.setName s).kind = j.kind ∧
    (j.setName s).initialPosition = j.initialPosition ∧
    (j.setName s).rankInConfiguration = j.rankInConfiguration ∧
    (j.setName s).rankInVelocity = j.rankInVelocity ∧
    (j.setName s).currentTransformation = j.currentTransformation ∧
    (j.setName s).jacobian = j.jacobian ∧
    (j.setName s).boundFlags = j.boundFlags ∧
    (j.setName s).lowerBounds = j.lowerBounds ∧
    (j.setName s).upperBounds = j.upperBounds ∧
    (j.setName s).mass = j.mass ∧
    (j.setName s).massCom = j.massCom ∧
    (j.setName s).parent = j.parent ∧
    (j.setName s).children = j.children ∧
    (j.setName s).body = j.body :=
  ⟨rfl, rfl, rfl, rfl, rfl, rfl, rfl, rfl, rfl, rfl, rfl, rfl, rfl, rfl, rfl⟩

end HppModel
